import Mathlib

/-!
Verification development for the `@radiantblockchain/constants` package
(`src/glyph.ts` and `src/wave.ts`): the Glyph protocol-combination
validator, the WAVE character codec, the WAVE name/domain validators and
the WAVE metadata builders.

Modelling conventions:
* JavaScript strings that are inspected character by character (names,
  domains, single-character codec arguments) are modelled as `List Char`;
  strings that are only passed through (refs, descriptions) as `String`.
* `String.prototype.toLowerCase` is modelled by `Char.toLower` on each
  character (the ASCII range, which is the range the validators accept).
* JavaScript `throw` is modelled by `Except String`; the `{valid, error?}`
  result objects by the `ValidationResult` structure.
* Protocol ids are JavaScript numbers, modelled as `Int`.
-/

namespace Radiant

/-- The `{ valid: boolean; error?: string }` result shape of the validators. -/
structure ValidationResult where
  valid : Bool
  error : Option String
deriving DecidableEq, Repr

/-! ### glyph.ts: protocol ids and the combination validator -/

namespace GlyphProtocol

def GLYPH_FT : Int := 1

def GLYPH_NFT : Int := 2

def GLYPH_DAT : Int := 3

def GLYPH_DMINT : Int := 4

def GLYPH_MUT : Int := 5

def GLYPH_BURN : Int := 6

def GLYPH_CONTAINER : Int := 7

def GLYPH_ENCRYPTED : Int := 8

def GLYPH_TIMELOCK : Int := 9

def GLYPH_AUTHORITY : Int := 10

def GLYPH_WAVE : Int := 11

end GlyphProtocol

/-- The entries of the `GlyphProtocol` object, in declaration order
(the order `Object.entries` yields in `getProtocolName`). -/
def GlyphProtocolEntries : List (String × Int) :=
  [("GLYPH_FT", 1), ("GLYPH_NFT", 2), ("GLYPH_DAT", 3), ("GLYPH_DMINT", 4),
   ("GLYPH_MUT", 5), ("GLYPH_BURN", 6), ("GLYPH_CONTAINER", 7), ("GLYPH_ENCRYPTED", 8),
   ("GLYPH_TIMELOCK", 9), ("GLYPH_AUTHORITY", 10), ("GLYPH_WAVE", 11)]

/-- The `getProtocolName` lookup: first entry of `GlyphProtocol` whose value equals `id`. -/
def getProtocolName (id : Int) : Option String :=
  (GlyphProtocolEntries.find? (fun e => e.2 == id)).map (fun e => e.1)

/-- How a `getProtocolName` result renders inside a template literal
(`undefined` when the id is unknown). -/
def showProtocolName (id : Int) : String :=
  match getProtocolName id with
  | some n => n
  | none => "undefined"

/-- The `PROTOCOL_REQUIREMENTS` record mapping a protocol id to the ids it
requires; `none` models absence of the key. -/
def PROTOCOL_REQUIREMENTS (p : Int) : Option (List Int) :=
  if p = 4 then some [1]
  else if p = 5 then some [2]
  else if p = 7 then some [2]
  else if p = 8 then some [2]
  else if p = 9 then some [8]
  else if p = 10 then some [2]
  else if p = 11 then some [2, 5]
  else none

/-- The `PROTOCOL_EXCLUSIONS` pairs: FT and NFT are mutually exclusive. -/
def PROTOCOL_EXCLUSIONS : List (Int × Int) := [(1, 2)]

/-- The `PROTOCOLS_REQUIRE_BASE` set: protocols that cannot exist alone. -/
def PROTOCOLS_REQUIRE_BASE : List Int := [4, 5, 6, 7, 8, 9, 10, 11]

/-- The `for (const protocol of protocols)` loop of `validateProtocols`:
first pair `(p, r)` where `p` is a listed protocol whose requirement `r`
is absent from `protocols`. -/
def findMissingRequirement (protocols : List Int) : List Int → Option (Int × Int)
  | [] => none
  | p :: rest =>
    match PROTOCOL_REQUIREMENTS p with
    | some reqs =>
      match reqs.find? (fun r => !protocols.contains r) with
      | some r => some (p, r)
      | none => findMissingRequirement protocols rest
    | none => findMissingRequirement protocols rest

/-- The `validateProtocols` function from glyph.ts: exclusion pairs, then missing
requirements, then the standalone check, then the BURN rule. -/
def validateProtocols (protocols : List Int) : ValidationResult :=
  match PROTOCOL_EXCLUSIONS.find? (fun ab => protocols.contains ab.1 && protocols.contains ab.2) with
  | some ab =>
    ⟨false, some ("Protocols " ++ showProtocolName ab.1 ++ " and " ++ showProtocolName ab.2
        ++ " are mutually exclusive")⟩
  | none =>
    match findMissingRequirement protocols protocols with
    | some pr =>
      ⟨false, some ("Protocol " ++ showProtocolName pr.1 ++ " requires " ++ showProtocolName pr.2)⟩
    | none =>
      if protocols.length == 1 && PROTOCOLS_REQUIRE_BASE.contains (protocols.headD 0) then
        ⟨false, some ("Protocol " ++ showProtocolName (protocols.headD 0) ++ " cannot exist alone")⟩
      else if protocols.contains 6 && !(protocols.contains 1) && !(protocols.contains 2) then
        ⟨false, some "BURN must accompany FT or NFT"⟩
      else
        ⟨true, none⟩

/-! ### wave.ts: constants and string helpers -/

/-- The `WAVE_CHARS` constant, the 37-character WAVE alphabet. -/
def WAVE_CHARS : List Char := "abcdefghijklmnopqrstuvwxyz0123456789-".toList

namespace WaveLimits

def MIN_NAME_LENGTH : Nat := 1

def MAX_NAME_LENGTH : Nat := 63

def MAX_SUBDOMAIN_DEPTH : Nat := 127

def CHAR_COUNT : Nat := 37

end WaveLimits

namespace WaveProtocols

/-- The list `[GLYPH_NFT, GLYPH_MUT, GLYPH_WAVE]`. -/
def WAVE_NAME : List Int :=
  [GlyphProtocol.GLYPH_NFT, GlyphProtocol.GLYPH_MUT, GlyphProtocol.GLYPH_WAVE]

/-- The list `[GLYPH_NFT, GLYPH_WAVE]`. -/
def WAVE_NAME_IMMUTABLE : List Int :=
  [GlyphProtocol.GLYPH_NFT, GlyphProtocol.GLYPH_WAVE]

end WaveProtocols

/-- JavaScript `String.prototype.toLowerCase`, character by character (ASCII range). -/
def jsToLowerCase (s : List Char) : List Char := s.map Char.toLower

/-- JavaScript `String.prototype.startsWith`. -/
def jsStartsWith : List Char → List Char → Bool
  | _, [] => true
  | [], _ :: _ => false
  | a :: s, b :: p => a = b && jsStartsWith s p

/-- JavaScript `String.prototype.endsWith`. -/
def jsEndsWith (s p : List Char) : Bool := jsStartsWith s.reverse p.reverse

/-- JavaScript `String.prototype.includes`: some suffix of `s` starts with `sub`. -/
def jsIncludes : List Char → List Char → Bool
  | s, sub =>
    if jsStartsWith s sub then true
    else
      match s with
      | [] => false
      | _ :: rest => jsIncludes rest sub

/-- JavaScript `String.prototype.indexOf` for a single-character needle:
first index of `c` in `s`, or `-1`. -/
def jsIndexOfChar : List Char → Char → Int
  | [], _ => -1
  | a :: rest, c =>
    if a = c then 0
    else
      let r := jsIndexOfChar rest c
      if r = -1 then -1 else r + 1

/-- JavaScript truthiness of an optional string
(`undefined` and `""` are falsy). -/
def jsTruthy (s : Option String) : Bool :=
  match s with
  | none => false
  | some v => !v.isEmpty

/-! ### wave.ts: character codec -/

/-- The `charToIndex` codec function: length-1 check, lowercase, then `WAVE_CHARS.indexOf`;
throws on a wrong-length argument or a character outside the alphabet. -/
def charToIndex (char : List Char) : Except String Int :=
  match char with
  | [c] =>
    let idx := jsIndexOfChar WAVE_CHARS c.toLower
    if idx = -1 then .error ("Invalid WAVE character: \"" ++ String.mk char ++ "\"")
    else .ok idx
  | _ => .error ("Expected single character, got: \"" ++ String.mk char ++ "\"")

/-- The `indexToChar` codec function: bounds check against `WAVE_CHARS.length`, then index. -/
def indexToChar (index : Int) : Except String Char :=
  if index < 0 || index ≥ (WAVE_CHARS.length : Int) then
    .error ("Invalid WAVE index: " ++ toString index ++ " (must be 0-36)")
  else .ok (WAVE_CHARS.getD index.toNat 'a')

/-- The `charToOutputIndex` codec function: `charToIndex(char) + 1` (exception propagates). -/
def charToOutputIndex (char : List Char) : Except String Int :=
  (charToIndex char).map (fun i => i + 1)

/-- The `outputIndexToChar` codec function: bounds check 1–37, then `indexToChar(i - 1)`. -/
def outputIndexToChar (outputIndex : Int) : Except String Char :=
  if outputIndex < 1 || outputIndex > 37 then
    .error ("Invalid branch output index: " ++ toString outputIndex ++ " (must be 1-37)")
  else indexToChar (outputIndex - 1)

/-! ### wave.ts: name and domain validation -/

/-- The character-set loop of `validateWaveName`: first character of the
(lowercased) name missing from `WAVE_CHARS`. -/
def findInvalidChar : List Char → Option Char
  | [] => none
  | c :: rest =>
    if !jsIncludes WAVE_CHARS [c] then some c
    else findInvalidChar rest

/-- The `validateWaveName` validator from wave.ts, rules in source order. -/
def validateWaveName (name : List Char) : ValidationResult :=
  if name.isEmpty then ⟨false, some "Name cannot be empty"⟩
  else if name.length > WaveLimits.MAX_NAME_LENGTH then
    ⟨false, some ("Name exceeds maximum length of " ++ toString WaveLimits.MAX_NAME_LENGTH)⟩
  else if jsStartsWith name ['-'] then ⟨false, some "Name cannot start with hyphen"⟩
  else if jsEndsWith name ['-'] then ⟨false, some "Name cannot end with hyphen"⟩
  else if jsIncludes name ['-', '-'] && !jsStartsWith name ['x', 'n', '-', '-'] then
    ⟨false, some "Name cannot contain consecutive hyphens (except Punycode prefix)"⟩
  else
    match findInvalidChar (jsToLowerCase name) with
    | some c => ⟨false, some ("Invalid character: \"" ++ String.mk [c] ++ "\"")⟩
    | none => ⟨true, none⟩

/-- The `isPunycode` predicate: lowercased name starts with `xn--`. -/
def isPunycode (name : List Char) : Bool :=
  jsStartsWith (jsToLowerCase name) ['x', 'n', '-', '-']

/-- JavaScript `String.prototype.split` at a dot, keeping empty segments. -/
def splitOnDot : List Char → List (List Char)
  | [] => [[]]
  | c :: rest =>
    let r := splitOnDot rest
    if c = '.' then [] :: r
    else (c :: r.headD []) :: r.tail

/-- The `parseLabels` helper: split on `.` and drop empty segments. -/
def parseLabels (domain : List Char) : List (List Char) :=
  (splitOnDot domain).filter (fun label => label.length > 0)

/-- The `joinLabels` helper: join with `.`. -/
def joinLabels (labels : List (List Char)) : List Char :=
  (labels.intersperse ['.']).flatten

/-- The per-label loop of `validateDomain`: first label rejected by
`validateWaveName`, with its result. -/
def findInvalidLabel : List (List Char) → Option (List Char × ValidationResult)
  | [] => none
  | l :: rest =>
    let r := validateWaveName l
    if r.valid then findInvalidLabel rest else some (l, r)

/-- The `validateDomain` validator from wave.ts. -/
def validateDomain (domain : List Char) : ValidationResult :=
  let labels := parseLabels domain
  if labels.length == 0 then ⟨false, some "Domain cannot be empty"⟩
  else if labels.length > WaveLimits.MAX_SUBDOMAIN_DEPTH then
    ⟨false, some ("Domain exceeds maximum depth of " ++ toString WaveLimits.MAX_SUBDOMAIN_DEPTH)⟩
  else
    match findInvalidLabel labels with
    | some lr =>
      ⟨false, some ("Invalid label \"" ++ String.mk lr.1 ++ "\": " ++ lr.2.error.getD "undefined")⟩
    | none => ⟨true, none⟩

/-! ### wave.ts: metadata builder -/

/-- The zone-record map: arbitrary key→value pairs, passed through verbatim. -/
structure WaveZoneRecords where
  entries : List (String × String)
deriving DecidableEq, Repr

/-- The `mutable` block of a `WaveMetadata` record. -/
structure MutableBlock where
  allowed : Bool
  controller : Option String
  fields : List String
deriving DecidableEq, Repr

/-- The `app.data` section of a `WaveMetadata` record. -/
structure WaveNameData where
  name : List Char
  parent : Option String
  zone : WaveZoneRecords
deriving DecidableEq, Repr

/-- The `app` section of a `WaveMetadata` record
(`nspace` models the `namespace` field, a Lean keyword). -/
structure WaveApp where
  nspace : String
  schema : String
  data : WaveNameData
deriving DecidableEq, Repr

/-- The complete `WaveMetadata` record (`mutable` is a field name in the
source; modelled as `mutableBlock`). -/
structure WaveMetadata where
  v : Nat
  type : String
  p : List Int
  name : Option (List Char)
  desc : Option String
  app : WaveApp
  mutableBlock : Option MutableBlock
deriving DecidableEq, Repr

/-- The `options` parameter of `createWaveMetadata`
(`mutable?`, `controllerRef?`, `description?`). -/
structure CreateOptions where
  mutableFlag : Option Bool
  controllerRef : Option String
  description : Option String
deriving DecidableEq, Repr

/-- The `createWaveMetadata` builder from wave.ts: validate the name (throwing on
failure), pick the protocol list by `options.mutable !== false`, assemble
the record, attach `desc` when the description is truthy, and attach the
mutable block (controller only when `options.controllerRef` is truthy). -/
def createWaveMetadata (name : List Char) (parentRef : Option String)
    (zone : WaveZoneRecords) (options : CreateOptions) : Except String WaveMetadata :=
  let validation := validateWaveName name
  if !validation.valid then
    .error ("Invalid name: " ++ validation.error.getD "undefined")
  else
    let metadata : WaveMetadata :=
      { v := 2
        type := "wave_name"
        p := if options.mutableFlag ≠ some false then WaveProtocols.WAVE_NAME
             else WaveProtocols.WAVE_NAME_IMMUTABLE
        name := some name
        desc := if jsTruthy options.description then options.description else none
        app :=
          { nspace := "rxd.wave"
            schema := "wave_name_v1"
            data := { name := name, parent := parentRef, zone := zone } }
        mutableBlock :=
          if options.mutableFlag ≠ some false then
            some { allowed := true
                   controller := if jsTruthy options.controllerRef then options.controllerRef
                                 else none
                   fields := ["/app/data/zone"] }
          else none }
    .ok metadata

/-! ### wave.ts: character path and size estimate -/

/-- One entry of the character path: `{ char, index, outputIndex }`. -/
structure CharacterPathEntry where
  char : Char
  index : Int
  outputIndex : Int
deriving DecidableEq, Repr

/-- The `.map` body of `getCharacterPath`: per character, `charToIndex`
then `charToOutputIndex`, first exception aborting the whole map. -/
def mapPathEntries : List Char → Except String (List CharacterPathEntry)
  | [] => .ok []
  | c :: rest =>
    match charToIndex [c] with
    | .error e => .error e
    | .ok i =>
      match charToOutputIndex [c] with
      | .error e => .error e
      | .ok oi =>
        match mapPathEntries rest with
        | .error e => .error e
        | .ok tail => .ok (⟨c, i, oi⟩ :: tail)

/-- The `getCharacterPath` builder from wave.ts: validate (throwing on failure), then
lowercase and map each character to its path entry. -/
def getCharacterPath (name : List Char) : Except String (List CharacterPathEntry) :=
  let validation := validateWaveName name
  if !validation.valid then
    .error ("Invalid name: " ++ validation.error.getD "undefined")
  else
    mapPathEntries (jsToLowerCase name)

/-- The `estimateResolutionSize` estimator from wave.ts. -/
def estimateResolutionSize (name : List Char) (updateCount : Nat) : Nat :=
  let baseSize := 1024
  let pathLength := name.length
  let updateSize := updateCount * 500
  (pathLength + 1) * baseSize + updateSize

/-! ### Boolean views of the individual `validateProtocols` checks -/

/-- Whether the exclusion loop of `validateProtocols` fires. -/
def exclusionHit (ps : List Int) : Bool :=
  (PROTOCOL_EXCLUSIONS.find? (fun ab => ps.contains ab.1 && ps.contains ab.2)).isSome

/-- Whether the standalone check of `validateProtocols` fires. -/
def standaloneHit (ps : List Int) : Bool :=
  ps.length == 1 && PROTOCOLS_REQUIRE_BASE.contains (ps.headD 0)

/-- Whether the BURN rule of `validateProtocols` fires. -/
def burnHit (ps : List Int) : Bool :=
  ps.contains 6 && !(ps.contains 1) && !(ps.contains 2)

/-- The requirement list of a protocol (empty when it has no entry). -/
def requirementList (p : Int) : List Int :=
  (PROTOCOL_REQUIREMENTS p).getD []

end Radiant

namespace Radiant

/-! ## Theorems -/

/-- Projection lemma: `(validateProtocols ps).valid` is the conjunction of the four checks. -/
theorem validateProtocols_valid_eq (ps : List Int) :
    (validateProtocols ps).valid =
      (!exclusionHit ps && (findMissingRequirement ps ps).isNone
        && !standaloneHit ps && !burnHit ps) := by
  unfold validateProtocols exclusionHit standaloneHit burnHit
  cases hE : PROTOCOL_EXCLUSIONS.find? (fun ab => ps.contains ab.1 && ps.contains ab.2) with
  | some ab => simp
  | none =>
    cases hR : findMissingRequirement ps ps with
    | some pr => simp
    | none =>
      cases h4 : (ps.length == 1) <;>
        cases h5 : PROTOCOLS_REQUIRE_BASE.contains (ps.headD 0) <;>
          cases h1 : ps.contains 6 <;> cases h2 : ps.contains 1 <;>
            cases h3 : ps.contains 2 <;> simp [h1, h2, h3, h4, h5]

/-- C10: `estimateResolutionSize` is the pure arithmetic formula
`(length(name) + 1) * 1024 + updateCount * 500` for every string (valid or
not — no name validation is involved), and in particular evaluates to
`6144` on `("alice", 0)` and `11144` on `("alice", 10)`. -/
theorem estimateResolutionSize_formula (name : List Char) (updateCount : Nat) :
    estimateResolutionSize name updateCount = (name.length + 1) * 1024 + updateCount * 500 ∧
    estimateResolutionSize "alice".toList 0 = 6144 ∧
    estimateResolutionSize "alice".toList 10 = 11144 :=
  ⟨rfl, by decide, by decide⟩

/-- C7: every string longer than 63 characters is rejected by
`validateWaveName` with the maximum-length error, and the 63-character
string `"a" * 63` is accepted. -/
theorem name_length_limit (name : List Char) (h : 63 < name.length) :
    validateWaveName name = ⟨false, some "Name exceeds maximum length of 63"⟩ ∧
    (validateWaveName (List.replicate 63 'a')).valid = true := by
  refine ⟨?_, by decide⟩
  have hne : name.isEmpty = false := by
    cases name with
    | nil => simp at h
    | cons a t => rfl
  have hlen : name.length > WaveLimits.MAX_NAME_LENGTH := h
  unfold validateWaveName
  rw [hne]
  simp [hlen]
  rfl

/-- Witness for C7 at the concrete 64-character input `"a" * 64`. -/
theorem name_length_limit_witness :
    validateWaveName (List.replicate 64 'a')
        = ⟨false, some "Name exceeds maximum length of 63"⟩ ∧
    (validateWaveName (List.replicate 63 'a')).valid = true :=
  name_length_limit (List.replicate 64 'a') (by decide)

/-- C3: whenever the input contains Burn (6) and contains neither
Fungible (1) nor Non-Fungible (2), `validateProtocols` rejects it. -/
theorem burn_without_base_invalid (l : List Int)
    (h6 : l.contains 6 = true) (h1 : l.contains 1 = false) (h2 : l.contains 2 = false) :
    (validateProtocols l).valid = false := by
  rw [validateProtocols_valid_eq]
  have h6m : 6 ∈ l := by simpa using h6
  have h1m : 1 ∉ l := by simpa using h1
  have h2m : 2 ∉ l := by simpa using h2
  simp [burnHit, h6m, h1m, h2m]

/-- Witness for C3 at the multi-element combination `{BURN, MUT}`. -/
theorem burn_without_base_invalid_witness :
    (validateProtocols [GlyphProtocol.GLYPH_BURN, GlyphProtocol.GLYPH_MUT]).valid = false :=
  burn_without_base_invalid [GlyphProtocol.GLYPH_BURN, GlyphProtocol.GLYPH_MUT]
    (by decide) (by decide) (by decide)

/-- C2: on any valid name, the metadata built with `mutable: false`
carries the protocol list `[NFT, WAVE] = [2, 11]`, and the repository's
own `validateProtocols` rejects that very list because WAVE requires MUT. -/
theorem immutable_metadata_fails_protocol_validator
    (name : List Char) (parentRef : Option String) (zone : WaveZoneRecords)
    (options : CreateOptions)
    (hvalid : (validateWaveName name).valid = true)
    (himm : options.mutableFlag = some false) :
    ∃ m, createWaveMetadata name parentRef zone options = .ok m ∧
      m.p = [GlyphProtocol.GLYPH_NFT, GlyphProtocol.GLYPH_WAVE] ∧ m.p = [2, 11] ∧
      validateProtocols m.p = ⟨false, some "Protocol GLYPH_WAVE requires GLYPH_MUT"⟩ := by
  unfold createWaveMetadata
  simp [hvalid, himm]
  exact ⟨rfl, rfl, by decide⟩

/-- Witness for C2 at the concrete call
`createWaveMetadata("alice", null, {}, {mutable: false})`. -/
theorem immutable_metadata_fails_protocol_validator_witness :
    ∃ m, createWaveMetadata "alice".toList none ⟨[]⟩ ⟨some false, none, none⟩ = .ok m ∧
      m.p = [GlyphProtocol.GLYPH_NFT, GlyphProtocol.GLYPH_WAVE] ∧ m.p = [2, 11] ∧
      validateProtocols m.p = ⟨false, some "Protocol GLYPH_WAVE requires GLYPH_MUT"⟩ :=
  immutable_metadata_fails_protocol_validator "alice".toList none ⟨[]⟩
    ⟨some false, none, none⟩ (by decide) rfl

/-- On a member, `jsIndexOfChar` returns a non-negative in-range index
pointing back at the character. -/
theorem jsIndexOfChar_of_mem (c : Char) :
    ∀ l : List Char, c ∈ l →
      0 ≤ jsIndexOfChar l c ∧ (jsIndexOfChar l c).toNat < l.length ∧
        l.getD (jsIndexOfChar l c).toNat 'a' = c
  | [], h => absurd h (List.not_mem_nil c)
  | a :: rest, h => by
    unfold jsIndexOfChar
    by_cases hac : a = c
    · simp [hac]
    · rw [if_neg hac]
      have hc : c ∈ rest := by
        rcases List.mem_cons.mp h with h1 | h1
        · exact absurd h1.symm hac
        · exact h1
      obtain ⟨h0, hlt, hget⟩ := jsIndexOfChar_of_mem c rest hc
      have hne : jsIndexOfChar rest c ≠ -1 := by omega
      rw [if_neg hne]
      refine ⟨by omega, ?_, ?_⟩
      · simp only [List.length_cons]
        omega
      · have htn : (jsIndexOfChar rest c + 1).toNat = (jsIndexOfChar rest c).toNat + 1 := by
          omega
        rw [htn, List.getD_cons_succ]
        exact hget

/-- The `jsIncludes` helper with a single-character needle is list membership. -/
theorem jsIncludes_single (c : Char) : ∀ l : List Char, jsIncludes l [c] = true ↔ c ∈ l
  | [] => by simp [jsIncludes, jsStartsWith]
  | a :: rest => by
    unfold jsIncludes
    by_cases hac : a = c
    · subst hac
      simp [jsStartsWith]
    · have h1 : jsStartsWith (a :: rest) [c] = false := by
        simp [jsStartsWith, hac]
      rw [h1]
      simp only [Bool.false_eq_true, if_false]
      rw [jsIncludes_single c rest]
      simp [Ne.symm hac]

/-- C5: the codec functions are exact inverses on their valid domains:
`charToOutputIndex ∘ outputIndexToChar` is the identity on `[1, 37]`, and
`outputIndexToChar ∘ charToOutputIndex` lowercases any character whose
lowercase form is in the 37-symbol alphabet. -/
theorem codec_roundtrip :
    (∀ i : Int, 1 ≤ i → i ≤ 37 →
      (outputIndexToChar i).bind (fun c => charToOutputIndex [c]) = .ok i) ∧
    (∀ ch : Char, ch.toLower ∈ WAVE_CHARS →
      (charToOutputIndex [ch]).bind (fun i => outputIndexToChar i) = .ok ch.toLower) := by
  constructor
  · intro i h1 h2
    interval_cases i <;> rfl
  · intro ch hch
    obtain ⟨h0, hlt, hget⟩ := jsIndexOfChar_of_mem ch.toLower WAVE_CHARS hch
    have hlen : WAVE_CHARS.length = 37 := rfl
    rw [hlen] at hlt
    have hne : jsIndexOfChar WAVE_CHARS ch.toLower ≠ -1 := by omega
    have hCI : charToIndex [ch] = .ok (jsIndexOfChar WAVE_CHARS ch.toLower) := by
      unfold charToIndex
      simp [hne]
    have hg1 : ¬ (jsIndexOfChar WAVE_CHARS ch.toLower + 1 < 1) := by omega
    have hg2 : ¬ (jsIndexOfChar WAVE_CHARS ch.toLower + 1 > 37) := by omega
    have hg3 : ¬ (jsIndexOfChar WAVE_CHARS ch.toLower + 1 - 1 < 0) := by omega
    have hg4 : ¬ (jsIndexOfChar WAVE_CHARS ch.toLower + 1 - 1 ≥ (WAVE_CHARS.length : Int)) := by
      rw [hlen]
      omega
    simp only [charToOutputIndex, hCI, Except.map, Except.bind, outputIndexToChar,
      indexToChar, hg1, hg2, hg3, hg4, decide_eq_true_eq, decide_eq_false_iff_not.mpr hg1,
      decide_eq_false_iff_not.mpr hg2, decide_eq_false_iff_not.mpr hg3,
      decide_eq_false_iff_not.mpr hg4, Bool.or_self, Bool.false_or, if_false,
      Bool.false_eq_true]
    have heq : jsIndexOfChar WAVE_CHARS ch.toLower + 1 - 1
        = jsIndexOfChar WAVE_CHARS ch.toLower := by omega
    rw [heq]
    exact congrArg Except.ok hget

/-- Witness for C5 at output index 2 and at the uppercase character `A`. -/
theorem codec_roundtrip_witness :
    ((outputIndexToChar 2).bind (fun c => charToOutputIndex [c]) = .ok 2) ∧
    ((charToOutputIndex ['A']).bind (fun i => outputIndexToChar i) = .ok 'A'.toLower) ∧
    'A'.toLower = 'a' :=
  ⟨codec_roundtrip.1 2 (by decide) (by decide), codec_roundtrip.2 'A' (by decide), by decide⟩

/-- The label loop finds nothing exactly when every label is valid. -/
theorem findInvalidLabel_eq_none_iff : ∀ ls : List (List Char),
    findInvalidLabel ls = none ↔ ∀ l ∈ ls, (validateWaveName l).valid = true
  | [] => by simp [findInvalidLabel]
  | l :: rest => by
    unfold findInvalidLabel
    by_cases h : (validateWaveName l).valid = true
    · rw [if_pos h, findInvalidLabel_eq_none_iff rest]
      simp [h]
    · rw [if_neg h]
      constructor
      · intro hc
        exact absurd hc (Option.some_ne_none _)
      · intro hall
        exact absurd (hall l (List.mem_cons_self l rest)) h

/-- What the label loop returns when it fires: the first offending label
(with its validation result). -/
theorem findInvalidLabel_eq_find? : ∀ ls : List (List Char),
    findInvalidLabel ls = (ls.find? (fun l => !(validateWaveName l).valid)).map
      (fun l => (l, validateWaveName l))
  | [] => rfl
  | l :: rest => by
    unfold findInvalidLabel
    by_cases h : (validateWaveName l).valid = true
    · rw [if_pos h, findInvalidLabel_eq_find? rest, List.find?_cons_of_neg]
      simp [h]
    · rw [if_neg h, List.find?_cons_of_pos]
      · simp
      · simp [Bool.not_eq_true _ ▸ h]

/-- A fired label loop certifies membership and failure of its label. -/
theorem findInvalidLabel_some : ∀ (ls : List (List Char)) lr,
    findInvalidLabel ls = some lr →
      lr.1 ∈ ls ∧ lr.2 = validateWaveName lr.1 ∧ lr.2.valid = false
  | [], lr, h => by simp [findInvalidLabel] at h
  | l :: rest, lr, h => by
    unfold findInvalidLabel at h
    by_cases hv : (validateWaveName l).valid = true
    · rw [if_pos hv] at h
      obtain ⟨hm, he, hf⟩ := findInvalidLabel_some rest lr h
      exact ⟨List.mem_cons_of_mem _ hm, he, hf⟩
    · rw [if_neg hv] at h
      cases h
      refine ⟨List.mem_cons_self _ _, rfl, ?_⟩
      simpa using hv

/-- C8: `validateDomain` fails exactly when the empty-filtered label list
is empty, deeper than 127, or contains an invalid label; the first invalid
label is the one reported; `"a..b"` is accepted as the labels
`["a", "b"]` and `""` is rejected as empty. -/
theorem validateDomain_spec :
    (∀ domain : List Char,
      (validateDomain domain).valid = false ↔
        (parseLabels domain = [] ∨ 127 < (parseLabels domain).length ∨
          ∃ label ∈ parseLabels domain, (validateWaveName label).valid = false)) ∧
    (∀ domain lab, (parseLabels domain).length ≠ 0 → (parseLabels domain).length ≤ 127 →
      (parseLabels domain).find? (fun l => !(validateWaveName l).valid) = some lab →
      validateDomain domain = ⟨false, some ("Invalid label \"" ++ String.mk lab ++ "\": "
        ++ (validateWaveName lab).error.getD "undefined")⟩) ∧
    validateDomain "a..b".toList = ⟨true, none⟩ ∧
    parseLabels "a..b".toList = ["a".toList, "b".toList] ∧
    validateDomain "".toList = ⟨false, some "Domain cannot be empty"⟩ := by
  refine ⟨?_, ?_, by decide, by decide, by decide⟩
  · intro domain
    unfold validateDomain
    by_cases h0 : (parseLabels domain).length = 0
    · have hnil : parseLabels domain = [] := List.length_eq_zero.mp h0
      simp [hnil]
    · have hne : ¬ parseLabels domain = [] := fun hh => h0 (by rw [hh]; rfl)
      by_cases h127 : 127 < (parseLabels domain).length
      · have : (parseLabels domain).length > WaveLimits.MAX_SUBDOMAIN_DEPTH := h127
        simp [h0, this, hne, h127]
      · have hd : ¬ (parseLabels domain).length > WaveLimits.MAX_SUBDOMAIN_DEPTH := h127
        cases hF : findInvalidLabel (parseLabels domain) with
        | some lr =>
          obtain ⟨hm, he, hf⟩ := findInvalidLabel_some _ lr hF
          simp only [h0, hd, hF, hne, h127, false_or]
          simp only [List.length_eq_zero, hne, if_false, hd, beq_iff_eq]
          constructor
          · intro _
            exact ⟨lr.1, hm, he ▸ hf⟩
          · intro _
            trivial
        | none =>
          have hall := (findInvalidLabel_eq_none_iff _).mp hF
          simp only [List.length_eq_zero, hne, beq_iff_eq, if_false, hd, hF]
          constructor
          · intro hfalse
            simp at hfalse
          · rintro (h1 | h2 | ⟨lab, hmem, hbad⟩)
            · exact h1.elim
            · exact absurd h2 h127
            · rw [hall lab hmem] at hbad
              cases hbad
  · intro domain lab hlen0 hlen127 hfind
    unfold validateDomain
    have hF : findInvalidLabel (parseLabels domain) = some (lab, validateWaveName lab) := by
      rw [findInvalidLabel_eq_find?, hfind]
      rfl
    have h0 : ¬ ((parseLabels domain).length == 0) = true := by
      simpa using hlen0
    have hd : ¬ (parseLabels domain).length > WaveLimits.MAX_SUBDOMAIN_DEPTH := by
      simpa [WaveLimits.MAX_SUBDOMAIN_DEPTH] using Nat.not_lt.mpr hlen127
    simp only [if_neg h0, if_neg hd, hF]

/-- Witness for C8 at the concrete domain `"ok.-bad"`, whose second label
is rejected for its leading hyphen. -/
theorem validateDomain_spec_witness :
    ((validateDomain "ok.-bad".toList).valid = false ↔
      (parseLabels "ok.-bad".toList = [] ∨ 127 < (parseLabels "ok.-bad".toList).length ∨
        ∃ label ∈ parseLabels "ok.-bad".toList, (validateWaveName label).valid = false)) ∧
    validateDomain "ok.-bad".toList = ⟨false, some ("Invalid label \"" ++ String.mk "-bad".toList
      ++ "\": " ++ (validateWaveName "-bad".toList).error.getD "undefined")⟩ :=
  ⟨validateDomain_spec.1 "ok.-bad".toList,
   validateDomain_spec.2.1 "ok.-bad".toList "-bad".toList (by decide) (by decide) (by decide)⟩

/-- The character loop finds nothing exactly when every character is in
the alphabet. -/
theorem findInvalidChar_eq_none_iff : ∀ l : List Char,
    findInvalidChar l = none ↔ ∀ c ∈ l, c ∈ WAVE_CHARS
  | [] => by simp [findInvalidChar]
  | c :: rest => by
    unfold findInvalidChar
    cases h : jsIncludes WAVE_CHARS [c] with
    | true =>
      have hc : c ∈ WAVE_CHARS := (jsIncludes_single c WAVE_CHARS).mp h
      simp only [h, Bool.not_true, Bool.false_eq_true, if_false]
      rw [findInvalidChar_eq_none_iff rest]
      simp [List.forall_mem_cons, hc]
    | false =>
      simp only [h, Bool.not_false, if_true]
      constructor
      · intro hc
        exact absurd hc (Option.some_ne_none _)
      · intro hall
        have hc : c ∈ WAVE_CHARS := hall c (List.mem_cons_self c rest)
        have h2 := (jsIncludes_single c WAVE_CHARS).mpr hc
        rw [h] at h2
        cases h2

/-- A name accepted by `validateWaveName` survives the character loop. -/
theorem validateWaveName_valid_no_invalid (name : List Char)
    (h : (validateWaveName name).valid = true) :
    findInvalidChar (jsToLowerCase name) = none := by
  unfold validateWaveName at h
  split at h
  · simp at h
  · split at h
    · simp at h
    · split at h
      · simp at h
      · split at h
        · simp at h
        · split at h
          · simp at h
          · split at h
            · simp at h
            · rename_i heq
              exact heq

/-- Characters of the alphabet are already lowercase. -/
theorem toLower_eq_self_of_mem_WAVE (c : Char) (h : c ∈ WAVE_CHARS) : c.toLower = c := by
  fin_cases h <;> decide

/-- On a list of alphabet characters, the path map succeeds and produces
one entry per character, in order, with the codec indices. -/
theorem mapPathEntries_ok : ∀ l : List Char, (∀ c ∈ l, c ∈ WAVE_CHARS) →
    ∃ entries, mapPathEntries l = .ok entries ∧
      entries.map (fun e => e.char) = l ∧
      ∀ e ∈ entries, charToIndex [e.char] = .ok e.index ∧
        charToOutputIndex [e.char] = .ok e.outputIndex ∧ e.outputIndex = e.index + 1
  | [], _ => ⟨[], rfl, rfl, by simp⟩
  | c :: rest, h => by
    have hc : c ∈ WAVE_CHARS := h c (List.mem_cons_self c rest)
    have hlow : c.toLower = c := toLower_eq_self_of_mem_WAVE c hc
    obtain ⟨h0, hlt, hget⟩ := jsIndexOfChar_of_mem c WAVE_CHARS hc
    have hne : jsIndexOfChar WAVE_CHARS c ≠ -1 := by omega
    have hCI : charToIndex [c] = .ok (jsIndexOfChar WAVE_CHARS c) := by
      unfold charToIndex
      simp [hlow, hne]
    have hCO : charToOutputIndex [c] = .ok (jsIndexOfChar WAVE_CHARS c + 1) := by
      unfold charToOutputIndex
      rw [hCI]
      rfl
    obtain ⟨tail, hT, hmap, hprop⟩ :=
      mapPathEntries_ok rest (fun x hx => h x (List.mem_cons_of_mem _ hx))
    refine ⟨⟨c, jsIndexOfChar WAVE_CHARS c, jsIndexOfChar WAVE_CHARS c + 1⟩ :: tail, ?_, ?_, ?_⟩
    · unfold mapPathEntries
      rw [hCI, hCO, hT]
    · simp [hmap]
    · intro e he
      rcases List.mem_cons.mp he with he1 | he1
      · subst he1
        exact ⟨hCI, hCO, rfl⟩
      · exact hprop e he1

/-- C9: `getCharacterPath` and `createWaveMetadata` raise exactly when
`validateWaveName` rejects the name; on a valid name `getCharacterPath`
returns one entry per character of the lowercased name, in original
order, with `index = charToIndex(char)` and `outputIndex = index + 1`
(never a partial path). -/
theorem builders_error_iff_invalid (name : List Char) :
    ((∃ e, getCharacterPath name = .error e) ↔ (validateWaveName name).valid = false) ∧
    (∀ parentRef zone options,
      (∃ e, createWaveMetadata name parentRef zone options = .error e)
        ↔ (validateWaveName name).valid = false) ∧
    ((validateWaveName name).valid = true →
      ∃ entries, getCharacterPath name = .ok entries ∧
        entries.map (fun e => e.char) = jsToLowerCase name ∧
        ∀ e ∈ entries, charToIndex [e.char] = .ok e.index ∧
          charToOutputIndex [e.char] = .ok e.outputIndex ∧ e.outputIndex = e.index + 1) := by
  have main : (validateWaveName name).valid = true →
      ∃ entries, getCharacterPath name = .ok entries ∧
        entries.map (fun e => e.char) = jsToLowerCase name ∧
        ∀ e ∈ entries, charToIndex [e.char] = .ok e.index ∧
          charToOutputIndex [e.char] = .ok e.outputIndex ∧ e.outputIndex = e.index + 1 := by
    intro hv
    have hnone := validateWaveName_valid_no_invalid name hv
    have hall := (findInvalidChar_eq_none_iff _).mp hnone
    obtain ⟨entries, hE, hmap, hprop⟩ := mapPathEntries_ok _ hall
    refine ⟨entries, ?_, hmap, hprop⟩
    unfold getCharacterPath
    simp [hv, hE]
  refine ⟨?_, ?_, main⟩
  · constructor
    · rintro ⟨e, he⟩
      cases hb : (validateWaveName name).valid with
      | false => rfl
      | true =>
        obtain ⟨entries, hE, _, _⟩ := main hb
        rw [hE] at he
        cases he
    · intro hv
      refine ⟨"Invalid name: " ++ (validateWaveName name).error.getD "undefined", ?_⟩
      unfold getCharacterPath
      simp [hv]
  · intro parentRef zone options
    constructor
    · rintro ⟨e, he⟩
      cases hb : (validateWaveName name).valid with
      | false => rfl
      | true =>
        unfold createWaveMetadata at he
        simp [hb] at he
    · intro hv
      refine ⟨"Invalid name: " ++ (validateWaveName name).error.getD "undefined", ?_⟩
      unfold createWaveMetadata
      simp [hv]

/-- Witness for C9: the valid name `"ab"` yields a full path, and the
invalid name `"-a"` makes `getCharacterPath` raise. -/
theorem builders_error_iff_invalid_witness :
    (∃ entries, getCharacterPath "ab".toList = .ok entries ∧
      entries.map (fun e => e.char) = jsToLowerCase "ab".toList ∧
      ∀ e ∈ entries, charToIndex [e.char] = .ok e.index ∧
        charToOutputIndex [e.char] = .ok e.outputIndex ∧ e.outputIndex = e.index + 1) ∧
    (∃ e, getCharacterPath "-a".toList = .error e) :=
  ⟨(builders_error_iff_invalid "ab".toList).2.2 (by decide),
   (builders_error_iff_invalid "-a".toList).1.mpr (by decide)⟩

/-- C6: on any valid name, `createWaveMetadata` selects the protocol list
by the mutability flag: an explicit `mutable: false` gives `p = [2, 11]`
and no mutable block; otherwise `p = [2, 5, 11]` and a mutable block with
`allowed: true`, `fields: ["/app/data/zone"]`, and the controller set
exactly when a truthy (non-empty) `controllerRef` is supplied. -/
theorem createWaveMetadata_protocol_selection
    (name : List Char) (parentRef : Option String) (zone : WaveZoneRecords)
    (options : CreateOptions)
    (hvalid : (validateWaveName name).valid = true) :
    ∃ m, createWaveMetadata name parentRef zone options = .ok m ∧
      (options.mutableFlag = some false → m.p = [2, 11] ∧ m.mutableBlock = none) ∧
      (options.mutableFlag ≠ some false →
        m.p = [2, 5, 11] ∧
        m.mutableBlock = some
          { allowed := true
            controller := if jsTruthy options.controllerRef then options.controllerRef else none
            fields := ["/app/data/zone"] } ∧
        (∀ c, options.controllerRef = some c → c ≠ "" →
          ∃ mb, m.mutableBlock = some mb ∧ mb.controller = some c)) := by
  unfold createWaveMetadata
  simp only [hvalid, Bool.not_true, Bool.false_eq_true, if_false]
  refine ⟨_, rfl, ?_, ?_⟩
  · intro hm
    constructor
    · show (if options.mutableFlag ≠ some false then WaveProtocols.WAVE_NAME
        else WaveProtocols.WAVE_NAME_IMMUTABLE) = [2, 11]
      simp [hm, WaveProtocols.WAVE_NAME_IMMUTABLE, GlyphProtocol.GLYPH_NFT,
        GlyphProtocol.GLYPH_WAVE]
    · show (if options.mutableFlag ≠ some false then _ else none) = none
      simp [hm]
  · intro hm
    have hp : (if options.mutableFlag ≠ some false then WaveProtocols.WAVE_NAME
        else WaveProtocols.WAVE_NAME_IMMUTABLE) = [2, 5, 11] := by
      simp [hm, WaveProtocols.WAVE_NAME, GlyphProtocol.GLYPH_NFT, GlyphProtocol.GLYPH_MUT,
        GlyphProtocol.GLYPH_WAVE]
    have hblk : (if options.mutableFlag ≠ some false then
          some ({ allowed := true
                  controller := if jsTruthy options.controllerRef then options.controllerRef
                                else none
                  fields := ["/app/data/zone"] } : MutableBlock)
        else none) = some
          { allowed := true
            controller := if jsTruthy options.controllerRef then options.controllerRef else none
            fields := ["/app/data/zone"] } := by
      simp [hm]
    refine ⟨hp, hblk, ?_⟩
    intro c hc hcne
    have htru : jsTruthy options.controllerRef = true := by
      rw [hc]
      unfold jsTruthy
      have hfe : c.isEmpty = false := by
        cases hb : c.isEmpty with
        | false => rfl
        | true => exact absurd ((String.isEmpty_iff c).mp hb) hcne
      simp [hfe]
    refine ⟨_, hblk, ?_⟩
    show (if jsTruthy options.controllerRef then options.controllerRef else none) = some c
    rw [htru, if_pos rfl, hc]

/-- Witness for C6 at `createWaveMetadata("alice", null, {}, {controllerRef: "ctrl"})`. -/
theorem createWaveMetadata_protocol_selection_witness :
    ∃ m, createWaveMetadata "alice".toList none ⟨[]⟩ ⟨none, some "ctrl", none⟩ = .ok m ∧
      ((⟨none, some "ctrl", none⟩ : CreateOptions).mutableFlag = some false →
        m.p = [2, 11] ∧ m.mutableBlock = none) ∧
      ((⟨none, some "ctrl", none⟩ : CreateOptions).mutableFlag ≠ some false →
        m.p = [2, 5, 11] ∧
        m.mutableBlock = some
          { allowed := true
            controller := if jsTruthy (some "ctrl") then some "ctrl" else none
            fields := ["/app/data/zone"] } ∧
        (∀ c, (some "ctrl" : Option String) = some c → c ≠ "" →
          ∃ mb, m.mutableBlock = some mb ∧ mb.controller = some c)) :=
  createWaveMetadata_protocol_selection "alice".toList none ⟨[]⟩ ⟨none, some "ctrl", none⟩
    (by decide)

/-- The invalid-character error and the consecutive-hyphen error differ
(their lengths differ). -/
theorem invalid_char_msg_ne_consec (c : Char) :
    ("Invalid character: \"" ++ String.mk [c] ++ "\"")
      ≠ "Name cannot contain consecutive hyphens (except Punycode prefix)" := by
  intro h
  have hlen := congrArg String.length h
  simp only [String.length_append, String.length_mk, List.length_cons, List.length_nil] at hlen
  exact absurd hlen (by decide)

/-- C1 (amended): for a name that passes the empty, length and boundary
hyphen rules and contains `--`, `validateWaveName` returns the
consecutive-hyphens error exactly when the name does not start with the
literal, case-sensitively compared prefix `xn--`. -/
theorem consecutive_hyphen_rule (name : List Char)
    (hne : name.isEmpty = false)
    (hlen : ¬ name.length > WaveLimits.MAX_NAME_LENGTH)
    (hs : jsStartsWith name ['-'] = false)
    (he : jsEndsWith name ['-'] = false)
    (hd : jsIncludes name ['-', '-'] = true) :
    ((validateWaveName name).error
        = some "Name cannot contain consecutive hyphens (except Punycode prefix)")
      ↔ jsStartsWith name ['x', 'n', '-', '-'] = false := by
  unfold validateWaveName
  rw [hne]
  simp only [Bool.false_eq_true, if_false, hlen, hs, he, hd]
  cases hx : jsStartsWith name ['x', 'n', '-', '-'] with
  | false =>
    simp
  | true =>
    simp only [Bool.not_true, Bool.and_false, Bool.false_eq_true, if_false]
    constructor
    · intro hc
      cases hF : findInvalidChar (jsToLowerCase name) with
      | some c =>
        rw [hF] at hc
        simp only [ValidationResult.error] at hc
        exact absurd (Option.some.inj hc) (invalid_char_msg_ne_consec c)
      | none =>
        rw [hF] at hc
        simp at hc
    · intro hfalse
      cases hfalse

/-- Witness for C1's amended rule at the concrete name `"a--b"`. -/
theorem consecutive_hyphen_rule_witness :
    ((validateWaveName "a--b".toList).error
        = some "Name cannot contain consecutive hyphens (except Punycode prefix)")
      ↔ jsStartsWith "a--b".toList ['x', 'n', '-', '-'] = false :=
  consecutive_hyphen_rule "a--b".toList (by decide) (by decide) (by decide) (by decide)
    (by decide)

/-- C1 counterexample: `"XN--a"` passes the empty, length and boundary
hyphen rules, contains `--`, and its lowercase form starts with `xn--`,
yet `validateWaveName` still returns the consecutive-hyphens error —
the Punycode exemption is compared case-sensitively, not
case-insensitively. -/
theorem consecutive_hyphen_case_counterexample :
    ("XN--a".toList.isEmpty = false ∧ ¬ "XN--a".toList.length > 63 ∧
      jsStartsWith "XN--a".toList ['-'] = false ∧ jsEndsWith "XN--a".toList ['-'] = false ∧
      jsIncludes "XN--a".toList ['-', '-'] = true ∧
      jsStartsWith (jsToLowerCase "XN--a".toList) ['x', 'n', '-', '-'] = true ∧
      isPunycode "XN--a".toList = true) ∧
    validateWaveName "XN--a".toList
      = ⟨false, some "Name cannot contain consecutive hyphens (except Punycode prefix)"⟩ := by
  decide

/-- The requirement loop finds nothing exactly when every listed
protocol's requirements are all present. -/
theorem findMissingRequirement_eq_none_iff (ps : List Int) : ∀ l : List Int,
    findMissingRequirement ps l = none ↔
      ∀ p ∈ l, ∀ r ∈ requirementList p, ps.contains r = true
  | [] => by simp [findMissingRequirement]
  | p :: rest => by
    unfold findMissingRequirement
    cases hR : PROTOCOL_REQUIREMENTS p with
    | none =>
      dsimp only
      rw [findMissingRequirement_eq_none_iff ps rest]
      have hnil : requirementList p = [] := by simp [requirementList, hR]
      simp [List.forall_mem_cons, hnil]
    | some reqs =>
      dsimp only
      have hreq : requirementList p = reqs := by simp [requirementList, hR]
      cases hF : reqs.find? (fun r => !ps.contains r) with
      | some r =>
        dsimp only
        constructor
        · intro hc
          exact absurd hc (Option.some_ne_none _)
        · intro hall
          have hmem := List.mem_of_find?_eq_some hF
          have hpred := List.find?_some hF
          have hcr := hall p (List.mem_cons_self p rest) r (hreq ▸ hmem)
          rw [hcr] at hpred
          cases hpred
      | none =>
        dsimp only
        rw [findMissingRequirement_eq_none_iff ps rest]
        have hall : ∀ r ∈ reqs, ps.contains r = true := by
          intro r hr
          have hh := List.find?_eq_none.mp hF r hr
          simpa using hh
        simp only [List.forall_mem_cons, hreq]
        constructor
        · intro h2
          exact ⟨hall, h2⟩
        · intro h2
          exact h2.2

/-- The exclusion loop over the single pair `(FT, NFT)`. -/
theorem exclusionHit_eq (ps : List Int) :
    exclusionHit ps = (ps.contains 1 && ps.contains 2) := by
  unfold exclusionHit PROTOCOL_EXCLUSIONS
  cases h : ps.contains 1 && ps.contains 2 with
  | true =>
    rw [List.find?_cons_of_pos _ (by simpa using h)]
    rfl
  | false =>
    rw [List.find?_cons_of_neg _ (by simpa using h), List.find?_nil]
    rfl

/-- When every element of the input equals `p` and `p` has a requirement
`r ≠ p`, the requirement check fails the input. -/
theorem allsame_missing_req (l : List Int) (p r : Int)
    (hmemall : ∀ x : Int, x ∈ l ↔ x = p)
    (hr : r ∈ requirementList p) (hrp : r ≠ p) :
    (validateProtocols l).valid = false := by
  rw [validateProtocols_valid_eq]
  have hpl : p ∈ l := (hmemall p).mpr rfl
  have hcr : l.contains r = false := by
    cases hc : l.contains r with
    | false => rfl
    | true =>
      have hmem : r ∈ l := by simpa using hc
      exact absurd ((hmemall r).mp hmem) hrp
  have hisNone : (findMissingRequirement l l).isNone = false := by
    cases hmr : findMissingRequirement l l with
    | none =>
      exfalso
      have hall := (findMissingRequirement_eq_none_iff l l).mp hmr
      have hbad := hall p hpl r hr
      rw [hcr] at hbad
      cases hbad
    | some x => rfl
  simp [hisNone]

/-- C4: `validateProtocols` treats its input as a set — removing
duplicate ids never changes the accept/reject outcome. -/
theorem validateProtocols_dedup (l : List Int) :
    (validateProtocols l).valid = (validateProtocols l.dedup).valid := by
  have hcont : ∀ x : Int, l.dedup.contains x = l.contains x := by
    intro x
    cases h : l.contains x with
    | true =>
      have hx : x ∈ l := by simpa using h
      simpa using List.mem_dedup.mpr hx
    | false =>
      have hx : x ∉ l := by simpa using h
      simpa using fun hh => hx (List.mem_dedup.mp hh)
  have hexcl : exclusionHit l.dedup = exclusionHit l := by
    rw [exclusionHit_eq, exclusionHit_eq, hcont, hcont]
  have hburn : burnHit l.dedup = burnHit l := by
    unfold burnHit
    rw [hcont, hcont, hcont]
  have hnone_iff : (findMissingRequirement l.dedup l.dedup = none)
      ↔ (findMissingRequirement l l = none) := by
    rw [findMissingRequirement_eq_none_iff, findMissingRequirement_eq_none_iff]
    constructor
    · intro hall p hp r hr
      rw [← hcont]
      exact hall p (List.mem_dedup.mpr hp) r hr
    · intro hall p hp r hr
      rw [hcont]
      exact hall p (List.mem_dedup.mp hp) r hr
  have hreq : (findMissingRequirement l.dedup l.dedup).isNone
      = (findMissingRequirement l l).isNone := by
    cases h1 : findMissingRequirement l.dedup l.dedup with
    | none =>
      rw [hnone_iff.mp h1]
    | some pr =>
      cases h2 : findMissingRequirement l l with
      | none => exact absurd (hnone_iff.mpr h2) (by simp [h1])
      | some pr2 => rfl
  by_cases hsing : ∃ p, l = [p]
  · obtain ⟨p, rfl⟩ := hsing
    rw [(List.nodup_singleton p).dedup]
  · have hSl : standaloneHit l = false := by
      unfold standaloneHit
      cases l with
      | nil => rfl
      | cons a t =>
        cases t with
        | nil => exact absurd ⟨a, rfl⟩ hsing
        | cons b t2 => rfl
    by_cases hSd : standaloneHit l.dedup = true
    · obtain ⟨p, hdp⟩ : ∃ p, l.dedup = [p] := by
        rcases hb : l.dedup with _ | ⟨a, t⟩
        · rw [hb] at hSd
          simp [standaloneHit] at hSd
        · rcases t with _ | ⟨b, t2⟩
          · exact ⟨a, rfl⟩
          · rw [hb] at hSd
            simp [standaloneHit] at hSd
      have hpRB : PROTOCOLS_REQUIRE_BASE.contains p = true := by
        unfold standaloneHit at hSd
        rw [hdp] at hSd
        simpa using hSd
      have hmemall : ∀ x : Int, x ∈ l ↔ x = p := by
        intro x
        rw [← List.mem_dedup, hdp]
        simp
      have hp : p = 4 ∨ p = 5 ∨ p = 6 ∨ p = 7 ∨ p = 8 ∨ p = 9 ∨ p = 10 ∨ p = 11 := by
        simpa [PROTOCOLS_REQUIRE_BASE] using hpRB
      rw [hdp]
      rcases hp with rfl | rfl | rfl | rfl | rfl | rfl | rfl | rfl
      · rw [allsame_missing_req l 4 1 hmemall (by decide) (by decide),
          (by decide : (validateProtocols [(4 : Int)]).valid = false)]
      · rw [allsame_missing_req l 5 2 hmemall (by decide) (by decide),
          (by decide : (validateProtocols [(5 : Int)]).valid = false)]
      · have hb1 : l.contains 6 = true := by
          simpa using (hmemall 6).mpr rfl
        have hb2 : l.contains 1 = false := by
          cases hc : l.contains 1 with
          | false => rfl
          | true =>
            have hm1 : (1 : Int) ∈ l := by simpa using hc
            have := (hmemall 1).mp hm1
            norm_num at this
        have hb3 : l.contains 2 = false := by
          cases hc : l.contains 2 with
          | false => rfl
          | true =>
            have hm2 : (2 : Int) ∈ l := by simpa using hc
            have := (hmemall 2).mp hm2
            norm_num at this
        have hL : (validateProtocols l).valid = false := by
          rw [validateProtocols_valid_eq]
          have hm6 : (6 : Int) ∈ l := by simpa using hb1
          have hm1 : (1 : Int) ∉ l := by simpa using hb2
          have hm2 : (2 : Int) ∉ l := by simpa using hb3
          simp [burnHit, hm6, hm1, hm2]
        rw [hL, (by decide : (validateProtocols [(6 : Int)]).valid = false)]
      · rw [allsame_missing_req l 7 2 hmemall (by decide) (by decide),
          (by decide : (validateProtocols [(7 : Int)]).valid = false)]
      · rw [allsame_missing_req l 8 2 hmemall (by decide) (by decide),
          (by decide : (validateProtocols [(8 : Int)]).valid = false)]
      · rw [allsame_missing_req l 9 8 hmemall (by decide) (by decide),
          (by decide : (validateProtocols [(9 : Int)]).valid = false)]
      · rw [allsame_missing_req l 10 2 hmemall (by decide) (by decide),
          (by decide : (validateProtocols [(10 : Int)]).valid = false)]
      · rw [allsame_missing_req l 11 2 hmemall (by decide) (by decide),
          (by decide : (validateProtocols [(11 : Int)]).valid = false)]
    · have hSd' : standaloneHit l.dedup = false := by
        cases hb : standaloneHit l.dedup with
        | false => rfl
        | true => exact absurd hb hSd
      rw [validateProtocols_valid_eq, validateProtocols_valid_eq, hexcl, hburn, hreq,
        hSl, hSd']

end Radiant
